import Mathlib

/-!
Verification of the SafeScan ingredient-matching core.

The repository ships two complete variants of the matching engine:

* `SJ` — the loose variant in `src/script.js` (first program in the file):
  `normalizeAvoid`/`loadAvoidList` compile the avoid list without a level
  filter, `normalizeIngredient` deletes parenthetical content, and
  `findTermHit` does word-boundary matching with a substring fallback for
  terms of length at least `PARTIAL_TOKEN_MIN_LEN`.
* `ST` — the strict variant in `src/unnamed/part_000`:
  `loadAvoidList` keeps only records with `level === 2 || level === 3`,
  `normalizeAvoid` drops generic single-word tokens, compiles each term to a
  regular expression via `buildStrictPatternForTerm`, and `findStrictHit`
  matches whole words/phrases only (with space/hyphen and E-number
  flexibility), returning the matched span.

Strings are modelled as `List Char`; the JS regular expressions that the
code builds are modelled by a small pattern AST (`Atom`) together with an
executable backtracking matcher that implements the semantics of the
patterns the source constructs (literal characters, the character classes
`[\s-]`, `[eE]`, `\s`, the quantifiers `+ ? *`, the `i` flag, and the
enclosing `(?<!\w) … (?!\w)` lookarounds).  `stripDiacritics`
(`normalize('NFD')` followed by removal of U+0300–U+036F) is modelled with
a finite canonical-decomposition table covering the precomposed Latin
letters; characters outside the table are atomic.
-/

namespace SafeScan

/-! ### Character predicates (JS character classes, via code points) -/

/-- JS `\s` (the whitespace characters relevant here). -/
def isJsSpace (c : Char) : Bool :=
  decide (c.toNat = 32 ∨ c.toNat = 9 ∨ c.toNat = 10 ∨ c.toNat = 13 ∨
    c.toNat = 11 ∨ c.toNat = 12 ∨ c.toNat = 160)

/-- JS `\w` = `[A-Za-z0-9_]`. -/
def isWordChar (c : Char) : Bool :=
  decide ((65 ≤ c.toNat ∧ c.toNat ≤ 90) ∨ (97 ≤ c.toNat ∧ c.toNat ≤ 122) ∨
    (48 ≤ c.toNat ∧ c.toNat ≤ 57) ∨ c.toNat = 95)

/-- The class `[a-z0-9]` used by the tokenizers and the end-stripping step. -/
def isLowAlnum (c : Char) : Bool :=
  decide ((97 ≤ c.toNat ∧ c.toNat ≤ 122) ∨ (48 ≤ c.toNat ∧ c.toNat ≤ 57))

/-- The separator class `[\s\-_]` collapsed by `normalizeIngredient`. -/
def isSepChar (c : Char) : Bool :=
  isJsSpace c || decide (c.toNat = 45 ∨ c.toNat = 95)

/-- The fragment separators `[,\[\];]` used by `buildIngredientsList`. -/
def isSplitSep (c : Char) : Bool :=
  decide (c.toNat = 44 ∨ c.toNat = 91 ∨ c.toNat = 93 ∨ c.toNat = 59)

/-- ASCII digit. -/
def isDigitChar (c : Char) : Bool := decide (48 ≤ c.toNat ∧ c.toNat ≤ 57)

/-! ### Association-list lookup (used for the case and NFD tables) -/

def tblLookup {α : Type} : List (Char × α) → Char → Option α
  | [], _ => none
  | (k, v) :: rest, c => if c = k then some v else tblLookup rest c

/-! ### `toLowerCase` (ASCII plus the Latin-1 uppercase letters) -/

def lowerTable : List (Char × Char) :=
  [('A', 'a'), ('B', 'b'), ('C', 'c'), ('D', 'd'), ('E', 'e'), ('F', 'f'),
   ('G', 'g'), ('H', 'h'), ('I', 'i'), ('J', 'j'), ('K', 'k'), ('L', 'l'),
   ('M', 'm'), ('N', 'n'), ('O', 'o'), ('P', 'p'), ('Q', 'q'), ('R', 'r'),
   ('S', 's'), ('T', 't'), ('U', 'u'), ('V', 'v'), ('W', 'w'), ('X', 'x'),
   ('Y', 'y'), ('Z', 'z'),
   ('À', 'à'), ('Á', 'á'), ('Â', 'â'), ('Ã', 'ã'), ('Ä', 'ä'), ('Å', 'å'),
   ('Æ', 'æ'), ('Ç', 'ç'), ('È', 'è'), ('É', 'é'), ('Ê', 'ê'), ('Ë', 'ë'),
   ('Ì', 'ì'), ('Í', 'í'), ('Î', 'î'), ('Ï', 'ï'), ('Ð', 'ð'), ('Ñ', 'ñ'),
   ('Ò', 'ò'), ('Ó', 'ó'), ('Ô', 'ô'), ('Õ', 'õ'), ('Ö', 'ö'), ('Ø', 'ø'),
   ('Ù', 'ù'), ('Ú', 'ú'), ('Û', 'û'), ('Ü', 'ü'), ('Ý', 'ý'), ('Þ', 'þ')]

def jsToLowerChar (c : Char) : Char :=
  match tblLookup lowerTable c with
  | some d => d
  | none => c

def jsToLower (l : List Char) : List Char := l.map jsToLowerChar

/-! ### `stripDiacritics`: NFD decomposition table + combining-mark filter -/

/-- Combining marks U+0300–U+036F removed by `stripDiacritics`. -/
def isCombiningMark (c : Char) : Bool := decide (768 ≤ c.toNat ∧ c.toNat ≤ 879)

def markGrave : Char := Char.ofNat 768
def markAcute : Char := Char.ofNat 769
def markCirc : Char := Char.ofNat 770
def markTilde : Char := Char.ofNat 771
def markDiaer : Char := Char.ofNat 776
def markRing : Char := Char.ofNat 778
def markCedilla : Char := Char.ofNat 807

/-- Canonical decompositions of the common precomposed Latin lowercase
letters (the letters `toLowerCase` can produce from Latin-1 text). -/
def nfdTable : List (Char × List Char) :=
  [('à', ['a', markGrave]), ('á', ['a', markAcute]), ('â', ['a', markCirc]),
   ('ã', ['a', markTilde]), ('ä', ['a', markDiaer]), ('å', ['a', markRing]),
   ('ç', ['c', markCedilla]),
   ('è', ['e', markGrave]), ('é', ['e', markAcute]), ('ê', ['e', markCirc]),
   ('ë', ['e', markDiaer]),
   ('ì', ['i', markGrave]), ('í', ['i', markAcute]), ('î', ['i', markCirc]),
   ('ï', ['i', markDiaer]),
   ('ñ', ['n', markTilde]),
   ('ò', ['o', markGrave]), ('ó', ['o', markAcute]), ('ô', ['o', markCirc]),
   ('õ', ['o', markTilde]), ('ö', ['o', markDiaer]),
   ('ù', ['u', markGrave]), ('ú', ['u', markAcute]), ('û', ['u', markCirc]),
   ('ü', ['u', markDiaer]),
   ('ý', ['y', markAcute]), ('ÿ', ['y', markDiaer])]

def nfdChar (c : Char) : List Char :=
  match tblLookup nfdTable c with
  | some l => l
  | none => [c]

/-- `t.normalize('NFD').replace(/[̀-ͯ]/g, '')`. -/
def stripDiacritics (l : List Char) : List Char :=
  ((l.map nfdChar).flatten).filter (fun c => !isCombiningMark c)

/-! ### `trim` and end-stripping -/

/-- Remove the trailing run of characters satisfying `p` (structurally,
without `reverse`, so that proofs about it stay simple). -/
def dropTrailing (p : Char → Bool) : List Char → List Char
  | [] => []
  | c :: rest =>
    let r := dropTrailing p rest
    if r.isEmpty then (if p c then [] else [c]) else c :: r

/-- Remove leading and trailing runs of characters satisfying `p`. -/
def dropEnds (p : Char → Bool) (l : List Char) : List Char :=
  dropTrailing p (l.dropWhile p)

/-- JS `String.prototype.trim`. -/
def jsTrim (l : List Char) : List Char := dropEnds isJsSpace l

/-- `t.replace(/^[^a-z0-9]+|[^a-z0-9]+$/g, '')`. -/
def stripEnds (l : List Char) : List Char := dropEnds (fun c => !isLowAlnum c) l

/-! ### The global regex replaces used by `normalizeIngredient` -/

/-- `t.replace(/\([^)]*\)/g, '')`: delete each segment from a `(` to the
first following `)`.  A pending `(` whose closing `)` never arrives is kept
verbatim (the JS regex does not match it). -/
def removeParensAux : List Char → Option (List Char) → List Char
  | [], none => []
  | [], some buf => '(' :: buf.reverse
  | c :: rest, none =>
    if c = '(' then removeParensAux rest (some [])
    else c :: removeParensAux rest none
  | c :: rest, some buf =>
    if c = ')' then removeParensAux rest none
    else removeParensAux rest (some (c :: buf))

def removeParens (l : List Char) : List Char := removeParensAux l none

/-- `t.replace(/[\s\-_]+/g, ' ')`: each run of separators becomes one
space.  The boolean records whether the previous character was part of a
run whose replacement space has already been emitted. -/
def collapseSepsAux : Bool → List Char → List Char
  | _, [] => []
  | inRun, c :: rest =>
    if isSepChar c then
      (if inRun then [] else [' ']) ++ collapseSepsAux true rest
    else c :: collapseSepsAux false rest

def collapseSeps (l : List Char) : List Char := collapseSepsAux false l

/-! Shape predicates used to state the invariants of normalized tokens. -/

/-- Whether the regex `\([^)]*\)` matches somewhere in `l`, i.e. whether a
`'('` is followed (anywhere later) by a `')'`. -/
def hasOC : List Char → Bool
  | [] => false
  | c :: rest => (decide (c = '(') && decide (')' ∈ rest)) || hasOC rest

/-- Every separator character of `l` is a plain space. -/
def SpacedOk (l : List Char) : Prop :=
  ∀ c ∈ l, isSepChar c = true → c = ' '

/-- No two adjacent characters of `l` are both separators. -/
def NoAdjSep (l : List Char) : Prop :=
  List.Chain' (fun a b => isSepChar a = false ∨ isSepChar b = false) l

/-- The head of `l`, if any, is not a separator. -/
def headNonSep : List Char → Prop
  | [] => True
  | c :: _ => isSepChar c = false

/-! ### Splitting (JS `String.prototype.split` on a character-class regex) -/

/-- `text.split(/[…]+/)` for a class given by `sep`: split at each run of
separator characters, keeping the empty leading/trailing pieces JS
produces.  `acc` is the current piece, reversed; `inRun` records that the
previous character was a separator (so the piece before the run has already
been emitted). -/
def splitRunsAux (sep : Char → Bool) : Bool → List Char → List Char → List (List Char)
  | _, acc, [] => [acc.reverse]
  | inRun, acc, c :: rest =>
    if sep c then
      if inRun then splitRunsAux sep true acc rest
      else acc.reverse :: splitRunsAux sep true [] rest
    else splitRunsAux sep false (c :: acc) rest

def splitRuns (sep : Char → Bool) (l : List Char) : List (List Char) :=
  splitRunsAux sep false [] l

/-! ### Order-preserving deduplication (`uniq` in both variants) -/

def uniqAux {α : Type} [BEq α] : List α → List α → List α
  | _, [] => []
  | seen, x :: rest =>
    if seen.contains x then uniqAux seen rest
    else x :: uniqAux (x :: seen) rest

def uniq {α : Type} [BEq α] (l : List α) : List α := uniqAux [] l

/-- Substring containment, `hay.includes(needle)`. -/
def listContains (hay needle : List Char) : Bool :=
  (List.range (hay.length + 1)).any fun i =>
    (hay.drop i).take needle.length == needle

/-! ### A word-boundary test for literal needles

`findTermHit` builds `new RegExp('\\b' + escapeRegex(needle) + '\\b')`;
since every character of the needle is escaped, the regex denotes the
literal needle between two `\b` assertions.  JS `\b` holds between two
positions exactly when the word-ness of the adjacent characters differs
(out-of-range counts as non-word). -/

def boundaryAt (hay : List Char) (i : Nat) : Bool :=
  (if i = 0 then false else isWordChar (hay.getD (i - 1) ' '))
    != isWordChar (hay.getD i ' ')

def boundaryTest (needle hay : List Char) : Bool :=
  (List.range (hay.length + 1)).any fun i =>
    ((hay.drop i).take needle.length == needle)
      && boundaryAt hay i && boundaryAt hay (i + needle.length)

/-! ### The pattern AST for `buildStrictPatternForTerm`

The strict variant compiles each term to
`new RegExp('(?<!\\w)' + escaped + '(?!\\w)', 'i')` where `escaped` is the
escaped term after the space- and E-number-flex rewrites.  The bodies this
produces consist only of literal characters (possibly `\`-escaped), the
classes `[\s-]` and `[eE]`, the class `\s`, and the quantifiers `+ ? *`.
The AST below covers exactly that fragment; the lookarounds and the `i`
flag are implemented by the executor. -/

inductive ClsItem where
  | ch (c : Char)
  | ws
deriving DecidableEq

inductive Quant where
  | one
  | opt
  | plus
  | star
deriving DecidableEq

structure Atom where
  cls : List ClsItem
  q : Quant
deriving DecidableEq

/-- One character against one class item, under the `i` flag. -/
def clsItemMatches (it : ClsItem) (c : Char) : Bool :=
  match it with
  | .ch d => jsToLowerChar c == jsToLowerChar d
  | .ws => isJsSpace c

def clsMatches (cl : List ClsItem) (c : Char) : Bool :=
  cl.any (clsItemMatches · c)

/-- Backtracking matcher for a pattern body.  Greedy (consume-first) like
the JS engine; the continuation `k` receives the unconsumed suffix and
implements the trailing lookahead.  Each recursive call strictly decreases
`atoms.length + s.length`, so fuel `atoms.length + s.length + 1` never runs
out. -/
def matchB : Nat → List Atom → List Char → (List Char → Option (List Char)) →
    Option (List Char)
  | 0, _, _, _ => none
  | _ + 1, [], s, k => k s
  | fuel + 1, a :: as, s, k =>
    match a.q with
    | .one =>
      match s with
      | [] => none
      | c :: s' => if clsMatches a.cls c then matchB fuel as s' k else none
    | .opt =>
      (match s with
       | c :: s' => if clsMatches a.cls c then matchB fuel as s' k else none
       | [] => none).orElse (fun _ => matchB fuel as s k)
    | .plus =>
      match s with
      | [] => none
      | c :: s' =>
        if clsMatches a.cls c then matchB fuel ({ cls := a.cls, q := .star } :: as) s' k
        else none
    | .star =>
      (match s with
       | c :: s' =>
         if clsMatches a.cls c then matchB fuel ({ cls := a.cls, q := .star } :: as) s' k
         else none
       | [] => none).orElse (fun _ => matchB fuel as s k)

def firstSome {α β : Type} : List α → (α → Option β) → Option β
  | [], _ => none
  | a :: rest, f =>
    match f a with
    | some b => some b
    | none => firstSome rest f

/-- The lookbehind `(?<!\w)` at position `i`. -/
def prevNonWord (hay : List Char) (i : Nat) : Bool :=
  if i = 0 then true else !isWordChar (hay.getD (i - 1) ' ')

/-- The lookahead `(?!\w)` at the current suffix. -/
def endNonWord : List Char → Bool
  | [] => true
  | c :: _ => !isWordChar c

/-- Unanchored execution of `(?<!\w) body (?!\w)` against `hay`: leftmost
start position first, greedy within a position; returns the matched span
(`ing.match(rx)?.[0]`). -/
def strictExec (body : List Atom) (hay : List Char) : Option (List Char) :=
  firstSome (List.range (hay.length + 1)) fun i =>
    if prevNonWord hay i then
      match matchB (body.length + (hay.length - i) + 1) body (hay.drop i)
          (fun rest => if endNonWord rest then some rest else none) with
      | some rest => some ((hay.drop i).take (hay.length - i - rest.length))
      | none => none
    else none

/-- `rx.test(ing)` for a compiled strict pattern. -/
def strictTest (body : List Atom) (hay : List Char) : Bool :=
  (strictExec body hay).isSome

/-! ### Building the strict pattern (string-level, as the source does) -/

/-- `s.replace(/[.*+?^${}()|[\]\\]/g, '\\$&')`. -/
def isRegexSpecial (c : Char) : Bool :=
  decide (c.toNat = 46 ∨ c.toNat = 42 ∨ c.toNat = 43 ∨ c.toNat = 63 ∨
    c.toNat = 94 ∨ c.toNat = 36 ∨ c.toNat = 123 ∨ c.toNat = 125 ∨
    c.toNat = 40 ∨ c.toNat = 41 ∨ c.toNat = 124 ∨ c.toNat = 91 ∨
    c.toNat = 93 ∨ c.toNat = 92)

def escapeRegex : List Char → List Char
  | [] => []
  | c :: rest =>
    if isRegexSpecial c then '\\' :: c :: escapeRegex rest
    else c :: escapeRegex rest

/-- `escaped.replace(/\s+/g, '[\\s-]+')`. -/
def flexSpacesAux : Bool → List Char → List Char
  | _, [] => []
  | inRun, c :: rest =>
    if isJsSpace c then
      (if inRun then [] else "[\\s-]+".toList) ++ flexSpacesAux true rest
    else c :: flexSpacesAux false rest

def flexSpaces (l : List Char) : List Char := flexSpacesAux false l

/-- Tail of a match of `/\be\s*[- ]?\s*(\d{3,4})\b/` starting right after
the `e`: the separator segment must be whitespace/hyphen with at most one
hyphen (`\s*[- ]?\s*`), then 3–4 digits followed by a word boundary.
Returns the digits and the unconsumed suffix. -/
def eNumTail (rest : List Char) : Option (List Char × List Char) :=
  let sep := rest.takeWhile fun c => isJsSpace c || decide (c.toNat = 45)
  let afterSep := rest.drop sep.length
  let digits := afterSep.takeWhile isDigitChar
  let after := afterSep.drop digits.length
  if (sep.filter (fun c => decide (c.toNat = 45))).length ≤ 1
      ∧ (digits.length = 3 ∨ digits.length = 4)
      ∧ endNonWord after = true then
    some (digits, after)
  else none

/-- `escaped.replace(/\be\s*[- ]?\s*(\d{3,4})\b/gi, '[eE][\\s-]?$1')`,
scanning left to right; `prevW` tracks word-ness of the previous character
(for the leading `\b`, since `e` is a word character).  The fuel is the
input length; every step consumes at least one input character. -/
def eFlexAux : Nat → Bool → List Char → List Char
  | 0, _, s => s
  | _ + 1, _, [] => []
  | fuel + 1, prevW, c :: rest =>
    if (decide (c.toNat = 101) || decide (c.toNat = 69)) && !prevW then
      match eNumTail rest with
      | some (digits, rest') =>
        ("[eE][\\s-]?".toList ++ digits) ++ eFlexAux fuel true rest'
      | none => c :: eFlexAux fuel true rest
    else c :: eFlexAux fuel (isWordChar c) rest

def eNumberFlex (l : List Char) : List Char := eFlexAux (l.length + 1) false l

/-! ### Parsing the generated body into the AST (`new RegExp`) -/

def parseClsItems : List Char → Option (List ClsItem × List Char)
  | [] => none
  | ']' :: rest => some ([], rest)
  | '\\' :: [] => none
  | '\\' :: c :: rest =>
    (parseClsItems rest).map fun p =>
      ((if c = 's' then ClsItem.ws else ClsItem.ch c) :: p.1, p.2)
  | c :: rest =>
    (parseClsItems rest).map fun p => (ClsItem.ch c :: p.1, p.2)

def parseQuant : List Char → Quant × List Char
  | '+' :: rest => (.plus, rest)
  | '?' :: rest => (.opt, rest)
  | '*' :: rest => (.star, rest)
  | rest => (.one, rest)

/-- Characters that would carry regex-operator meaning if they appeared
unescaped in a body; `escapeRegex` escapes all of them, so for generated
bodies the `none` branches below are unreachable. -/
def isBareOperator (c : Char) : Bool :=
  decide (c.toNat = 43 ∨ c.toNat = 63 ∨ c.toNat = 42 ∨ c.toNat = 40 ∨
    c.toNat = 41 ∨ c.toNat = 124 ∨ c.toNat = 94 ∨ c.toNat = 36 ∨
    c.toNat = 123 ∨ c.toNat = 125 ∨ c.toNat = 46 ∨ c.toNat = 93)

def parseAtoms : Nat → List Char → Option (List Atom)
  | 0, _ => none
  | _ + 1, [] => some []
  | fuel + 1, '[' :: rest =>
    match parseClsItems rest with
    | none => none
    | some (its, r) =>
      let q := parseQuant r
      (parseAtoms fuel q.2).map fun as => { cls := its, q := q.1 } :: as
  | _ + 1, '\\' :: [] => none
  | fuel + 1, '\\' :: c :: rest =>
    let it := if c = 's' then ClsItem.ws else ClsItem.ch c
    let q := parseQuant rest
    (parseAtoms fuel q.2).map fun as => { cls := [it], q := q.1 } :: as
  | fuel + 1, c :: rest =>
    if isBareOperator c then none
    else
      let q := parseQuant rest
      (parseAtoms fuel q.2).map fun as => { cls := [ClsItem.ch c], q := q.1 } :: as

def compileBody (l : List Char) : Option (List Atom) :=
  parseAtoms (l.length + 1) l

/-! ### Data model -/

/-- A raw avoid-list record `{name, level, synonyms}`; each field may be
absent (`raw?.name ?? ''`, `Number(raw?.level ?? 0)`,
`Array.isArray(raw?.synonyms) ? … : []`). -/
structure RawEntry where
  name : Option String := none
  level : Option Int := none
  synonyms : Option (List String) := none
deriving DecidableEq

def RawEntry.empty : RawEntry := {}

/-- A match pushed into a severity bucket: `{ term: hit, name: entry.name }`. -/
structure Hit where
  term : String
  name : String
deriving DecidableEq

/-! ### Shared tokenizer (`tokenizeForTerms`, threshold 5 in both variants) -/

def TERM_TOKEN_MIN_LEN : Nat := 5

/-- Replace `( ) [ ]` by spaces. -/
def bracketsToSpace (l : List Char) : List Char :=
  l.map fun c =>
    if decide (c.toNat = 40 ∨ c.toNat = 41 ∨ c.toNat = 91 ∨ c.toNat = 93)
    then ' ' else c

/-- `tokenizeForTerms`: lowercase, strip diacritics, brackets to spaces,
split on runs of `[^a-z0-9]`, keep non-empty tokens of length ≥ 5. -/
def tokenizeForTerms (s : String) : List String :=
  if s.toList = [] then []
  else
    let keep := bracketsToSpace (stripDiacritics (jsToLower s.toList))
    ((((splitRuns (fun c => !isLowAlnum c) keep).filter (· ≠ [])).filter
        fun t => TERM_TOKEN_MIN_LEN ≤ t.length).map fun t => (⟨t⟩ : String))

/-! ## `SJ`: the loose variant (first program in `src/script.js`) -/

namespace SJ

structure CompiledEntry where
  name : String
  level : Int
  terms : List String
deriving DecidableEq

/-- `normalizeAvoid` (script.js): trimmed lowercase name, numeric level,
base terms (name + synonyms, diacritic-stripped lowercase) unioned with the
expanded tokens, deduplicated in insertion order. -/
def normalizeAvoid (raw : RawEntry) : CompiledEntry :=
  let name : List Char := jsToLower (jsTrim (raw.name.getD "").toList)
  let level : Int := raw.level.getD 0
  let synonyms : List String := raw.synonyms.getD []
  let baseTerms : List (List Char) :=
    ((((⟨name⟩ : String) :: synonyms).filter fun t => t ≠ "").map
      fun t => stripDiacritics (jsToLower t.toList))
  let expandedTokens : List (List Char) :=
    ((raw.name.getD "" :: synonyms).flatMap fun s =>
      (tokenizeForTerms s).map String.toList)
  { name := ⟨name⟩
    level := level
    terms := ((uniq (baseTerms ++ expandedTokens)).filter (· ≠ [])).map
      fun t => (⟨t⟩ : String) }

/-- `loadAvoidList` (script.js): `data.map(normalizeAvoid)` — no level
filter; a `null` element still yields a (defaulted) compiled entry. -/
def loadAvoidList (data : List (Option RawEntry)) : List CompiledEntry :=
  data.map fun o => normalizeAvoid (o.getD RawEntry.empty)

/-- `normalizeIngredient` (script.js): lowercase+trim+strip diacritics,
delete `(…)` content, collapse `[\s\-_]+` to a space and trim, strip
non-`[a-z0-9]` ends. -/
def normalizeIngredientL (l : List Char) : List Char :=
  if l = [] then []
  else
    stripEnds (jsTrim (collapseSeps (removeParens
      (stripDiacritics (jsTrim (jsToLower l))))))

def normalizeIngredient (s : String) : String :=
  ⟨normalizeIngredientL s.toList⟩

/-- `buildIngredientsList` (script.js): prefer the structured array
(each element's `text` field, `x?.text ?? ''`); otherwise split the free
text on `[,\[\];]+`.  Empty results are filtered, then deduplicated. -/
def buildIngredientsList (text : String) (arr : List (Option String)) :
    List String :=
  if arr ≠ [] then
    uniq ((arr.map fun x => normalizeIngredient (x.getD "")).filter (· ≠ ""))
  else if text.toList = [] then []
  else
    uniq (((splitRuns isSplitSep text.toList).map
      fun t => normalizeIngredient ⟨t⟩).filter (· ≠ ""))

def PARTIAL_TOKEN_MIN_LEN : Nat := 5

/-- `findTermHit` (script.js): per term, first the exact-equality /
word-boundary pass over all ingredients, then — only for needles of length
≥ `PARTIAL_TOKEN_MIN_LEN` — the plain substring pass. -/
def findTermHit (ingredients terms : List String) : Option String :=
  match terms with
  | [] => none
  | t :: rest =>
    let needle := jsTrim (jsToLower t.toList)
    if needle = [] then findTermHit ingredients rest
    else if ingredients.any fun ing =>
        ing.toList == needle || boundaryTest needle ing.toList then
      some ⟨needle⟩
    else if decide (PARTIAL_TOKEN_MIN_LEN ≤ needle.length)
        && ingredients.any fun ing => listContains ing.toList needle then
      some ⟨needle⟩
    else findTermHit ingredients rest

/-- Declarative per-term hit condition used to characterize `findTermHit`:
the term hits if its needle (lowercased, trimmed) is non-empty and either
some ingredient matches exactly or at a word boundary, or the needle is at
least `PARTIAL_TOKEN_MIN_LEN` long and some ingredient contains it as a
substring. -/
def termHitCond (ingredients : List String) (t : String) : Bool :=
  let needle := jsTrim (jsToLower t.toList)
  (!needle.isEmpty) &&
    (ingredients.any
        (fun ing => ing.toList == needle || boundaryTest needle ing.toList)
      || (decide (PARTIAL_TOKEN_MIN_LEN ≤ needle.length)
          && ingredients.any fun ing => listContains ing.toList needle))

/-- `matchIngredients` (script.js): entries with falsy `level` are skipped
(`terms` is always an array, hence truthy); a hit goes to the lvl3 bucket
iff `level === 3`, otherwise to lvl2. -/
def matchIngredients (ingredients : List String) :
    List CompiledEntry → List Hit × List Hit
  | [] => ([], [])
  | e :: rest =>
    let acc := matchIngredients ingredients rest
    if e.level = 0 then acc
    else
      match findTermHit ingredients e.terms with
      | some hit =>
        if e.level = 3 then (acc.1, ⟨hit, e.name⟩ :: acc.2)
        else (⟨hit, e.name⟩ :: acc.1, acc.2)
      | none => acc

end SJ

/-! ## `ST`: the strict variant (`src/unnamed/part_000`) -/

namespace ST

def ALLOW_HYPHEN_SPACE_FLEX : Bool := true
def ALLOW_E_NUMBER_FLEX : Bool := true

def GENERIC_SINGLE_WORDS : List String :=
  ["oil", "salt", "pepper", "cheese", "milk", "cream", "butter", "liver",
   "flour", "gum", "starch", "sugar", "vinegar", "syrup", "yeast",
   "protein", "collagen", "broth", "powder", "bean", "beans", "pepperoni",
   "pasta"]

structure CompiledEntry where
  name : String
  level : Int
  terms : List String
  patterns : List (List Atom)
deriving DecidableEq

/-- `buildStrictPatternForTerm`: lowercase/trim/strip the term, escape it,
apply the space-flex and E-number-flex rewrites, and compile.  The JS wraps
the body in `(?<!\w) … (?!\w)` with flag `i`; here the executor
(`strictExec`) supplies the lookarounds and case folding.  `none` for the
empty term (the JS returns `null`). -/
def buildStrictPatternForTerm (term : String) : Option (List Atom) :=
  let t := stripDiacritics (jsTrim (jsToLower term.toList))
  if t = [] then none
  else
    let e1 := escapeRegex t
    let e2 := if ALLOW_HYPHEN_SPACE_FLEX then flexSpaces e1 else e1
    let e3 := if ALLOW_E_NUMBER_FLEX then eNumberFlex e2 else e2
    compileBody e3

/-- The full phrases of an entry: trimmed raw name plus synonyms, each
lowercased, trimmed and diacritic-stripped. -/
def fullPhrasesOf (raw : RawEntry) : List String :=
  let nameRaw : String := ⟨jsTrim (raw.name.getD "").toList⟩
  (((nameRaw :: raw.synonyms.getD []).filter fun t => t ≠ "").map
    fun t => (⟨stripDiacritics (jsTrim (jsToLower t.toList))⟩ : String))

/-- The expanded word tokens of an entry (from the trimmed name and every
synonym), in insertion order. -/
def tokenSetOf (raw : RawEntry) : List String :=
  let nameRaw : String := ⟨jsTrim (raw.name.getD "").toList⟩
  uniq ((nameRaw :: raw.synonyms.getD []).flatMap tokenizeForTerms)

/-- `normalizeAvoid` (part_000): full phrases always kept; expanded tokens
kept only when not in `GENERIC_SINGLE_WORDS`; a pattern per term. -/
def normalizeAvoid (raw : RawEntry) : CompiledEntry :=
  let nameRaw : String := ⟨jsTrim (raw.name.getD "").toList⟩
  let level : Int := raw.level.getD 0
  let terms : List String :=
    uniq (fullPhrasesOf raw ++
      (tokenSetOf raw).filter fun tok => !GENERIC_SINGLE_WORDS.contains tok)
  { name := nameRaw
    level := level
    terms := terms
    patterns := terms.filterMap buildStrictPatternForTerm }

/-- The filter `e => e && (e.level === 2 || e.level === 3)`: a `null`
element fails, and `===` compares the raw field (an absent level matches
neither 2 nor 3). -/
def levelIs23 (o : Option RawEntry) : Bool :=
  match o with
  | some e => e.level == some 2 || e.level == some 3
  | none => false

/-- `loadAvoidList` (part_000):
`arr.filter(e => e && (e.level === 2 || e.level === 3)).map(normalizeAvoid)`. -/
def loadAvoidList (arr : List (Option RawEntry)) : List CompiledEntry :=
  (arr.filter levelIs23).map fun o => normalizeAvoid (o.getD RawEntry.empty)

/-- `normalizeIngredient` (part_000): parentheses become spaces (inner
words are kept) instead of being deleted. -/
def normalizeIngredientL (l : List Char) : List Char :=
  if l = [] then []
  else
    stripEnds (jsTrim (collapseSeps
      ((stripDiacritics (jsTrim (jsToLower l))).map fun c =>
        if decide (c.toNat = 40 ∨ c.toNat = 41) then ' ' else c)))

def normalizeIngredient (s : String) : String :=
  ⟨normalizeIngredientL s.toList⟩

/-- `buildIngredientsList` (part_000): the free text has its parentheses
turned into commas before splitting, so nested sub-ingredients become
fragments of their own. -/
def buildIngredientsList (text : String) (arr : List (Option String)) :
    List String :=
  if arr ≠ [] then
    uniq ((arr.map fun x => normalizeIngredient (x.getD "")).filter (· ≠ ""))
  else if text.toList = [] then []
  else
    let pre := text.toList.map fun c =>
      if decide (c.toNat = 40 ∨ c.toNat = 41) then ',' else c
    uniq (((splitRuns isSplitSep pre).map
      fun t => normalizeIngredient ⟨t⟩).filter (· ≠ ""))

/-- `findStrictHit` (part_000): ingredients outer, patterns inner; on the
first pattern that tests true, return the matched span.  (The JS falls back
to `entry.name` if `match` returns `null` after `test` succeeded, which
cannot happen for these deterministic patterns; `strictExec` returns the
span directly.) -/
def findStrictHit (ingredients : List String) (entry : CompiledEntry) :
    Option String :=
  firstSome ingredients fun ing =>
    firstSome entry.patterns fun body =>
      (strictExec body ing.toList).map fun span => (⟨span⟩ : String)

/-- `matchIngredients` (part_000): entries with no patterns or falsy level
are skipped. -/
def matchIngredients (ingredients : List String) :
    List CompiledEntry → List Hit × List Hit
  | [] => ([], [])
  | e :: rest =>
    let acc := matchIngredients ingredients rest
    if e.patterns = [] ∨ e.level = 0 then acc
    else
      match findStrictHit ingredients e with
      | some hit =>
        if e.level = 3 then (acc.1, ⟨hit, e.name⟩ :: acc.2)
        else (⟨hit, e.name⟩ :: acc.1, acc.2)
      | none => acc

end ST

/-- `buildStrictPatternForTerm(term)` compiled and tested against `ing`
(false when the term compiles to no pattern, i.e. is empty). -/
def strictTermTest (term ing : String) : Bool :=
  match ST.buildStrictPatternForTerm term with
  | some body => strictTest body ing.toList
  | none => false

end SafeScan

open SafeScan

/-! ## Supporting lemmas -/

theorem mem_of_mem_uniqAux {α : Type} [BEq α] {x : α} :
    ∀ (seen l : List α), x ∈ uniqAux seen l → x ∈ l := by
  intro seen l
  induction l generalizing seen with
  | nil => simp [uniqAux]
  | cons y rest ih =>
    simp only [uniqAux]
    split
    · intro h
      exact List.mem_cons_of_mem _ (ih _ h)
    · intro h
      rcases List.mem_cons.mp h with h | h
      · exact h ▸ List.mem_cons_self _ _
      · exact List.mem_cons_of_mem _ (ih _ h)

theorem mem_of_mem_uniq {α : Type} [BEq α] {x : α} {l : List α}
    (h : x ∈ uniq l) : x ∈ l :=
  mem_of_mem_uniqAux [] l h

/-! ## The claims -/

/-- C4: In strict mode, the term "e621" (compiled from the entry
`{name:"msg", level:3, synonyms:["e621"]}`) matches the ingredient tokens
"e 621", "e-621" and "E621" (any case; space, hyphen or no separator) and
does not match "e62" or "e6210"; the ingredient
"monosodium glutamate (e-621)" yields exactly one level-3 match, with
matched span "e 621". -/
theorem C4_enumber_flex :
    strictTermTest "e621" "e 621" = true ∧
    strictTermTest "e621" "e-621" = true ∧
    strictTermTest "e621" "E621" = true ∧
    strictTermTest "e621" "e62" = false ∧
    strictTermTest "e621" "e6210" = false ∧
    ST.matchIngredients
      (ST.buildIngredientsList "monosodium glutamate (e-621)" [])
      [ST.normalizeAvoid ⟨some "msg", some 3, some ["e621"]⟩] =
      ([], [⟨"e 621", "msg"⟩]) := by
  decide

/-- C7: Under strict mode the multi-word term "carboxymethyl cellulose"
matches "carboxymethyl-cellulose" and "carboxymethyl  cellulose" (double
space) — both raw and after ingredient normalization — but not
"carboxymethylcellulose". -/
theorem C7_space_hyphen_flex :
    strictTermTest "carboxymethyl cellulose" "carboxymethyl-cellulose" = true ∧
    strictTermTest "carboxymethyl cellulose" "carboxymethyl  cellulose" = true ∧
    strictTermTest "carboxymethyl cellulose" "carboxymethylcellulose" = false ∧
    ST.normalizeIngredient "carboxymethyl-cellulose" =
      "carboxymethyl cellulose" ∧
    ST.normalizeIngredient "carboxymethyl  cellulose" =
      "carboxymethyl cellulose" ∧
    strictTermTest "carboxymethyl cellulose"
      (ST.normalizeIngredient "carboxymethyl-cellulose") = true ∧
    ST.normalizeIngredient "carboxymethylcellulose" =
      "carboxymethylcellulose" ∧
    strictTermTest "carboxymethyl cellulose"
      (ST.normalizeIngredient "carboxymethylcellulose") = false := by
  decide

/-- C1, counterexample: the script.js `loadAvoidList` applies no level
filter, so a level-1 record is compiled, and `matchIngredients` surfaces
it in the level-2 bucket. -/
theorem C1_counterexample :
    SJ.loadAvoidList [some ⟨some "gluten", some 1, some []⟩] =
      [⟨"gluten", 1, ["gluten"]⟩] ∧
    SJ.matchIngredients ["gluten"]
      (SJ.loadAvoidList [some ⟨some "gluten", some 1, some []⟩]) =
      ([⟨"gluten", "gluten"⟩], []) := by
  decide

/-- C1, amended: the strict variant's `loadAvoidList` compiles exactly the
(non-null) records whose raw `level` is 2 or 3. -/
theorem C1_strict_level_filter (arr : List (Option RawEntry))
    (c : ST.CompiledEntry) :
    c ∈ ST.loadAvoidList arr ↔
      ∃ e : RawEntry, some e ∈ arr ∧
        (e.level = some 2 ∨ e.level = some 3) ∧ c = ST.normalizeAvoid e := by
  simp only [ST.loadAvoidList, List.mem_map, List.mem_filter]
  constructor
  · rintro ⟨o, ⟨ho, hp⟩, rfl⟩
    cases o with
    | none => simp [ST.levelIs23] at hp
    | some e =>
      refine ⟨e, ho, ?_, rfl⟩
      simpa [ST.levelIs23] using hp
  · rintro ⟨e, he, hl, rfl⟩
    exact ⟨some e, ⟨he, by simpa [ST.levelIs23] using hl⟩, rfl⟩

/-- C2, counterexample: "cheese" is in the configured denylist, yet the
entry `{name:"cheese", level:2}` compiles with "cheese" in its term set
and the ingredient "cheese" produces a level-2 match in strict mode. -/
theorem C2_counterexample :
    "cheese" ∈ ST.GENERIC_SINGLE_WORDS ∧
    "cheese" ∈ (ST.normalizeAvoid ⟨some "cheese", some 2, some []⟩).terms ∧
    ST.matchIngredients (ST.buildIngredientsList "cheese" [])
      [ST.normalizeAvoid ⟨some "cheese", some 2, some []⟩] =
      ([⟨"cheese", "cheese"⟩], []) := by
  decide

/-- C2, amended: the denylist is applied only to the expanded word tokens —
any denylisted term that survives into a compiled entry's term set must be
one of the entry's full phrases (its normalized name or a synonym). -/
theorem C2_generic_excluded_from_tokens (raw : RawEntry) (t : String)
    (ht : t ∈ (ST.normalizeAvoid raw).terms)
    (hg : t ∈ ST.GENERIC_SINGLE_WORDS) :
    t ∈ ST.fullPhrasesOf raw := by
  have h := mem_of_mem_uniq ht
  rcases List.mem_append.mp h with h | h
  · exact h
  · exfalso
    have hc := (List.mem_filter.mp h).2
    simp only [Bool.not_eq_true'] at hc
    unfold List.contains at hc
    rw [List.elem_eq_true_of_mem hg] at hc
    exact Bool.true_eq_false.mp hc

/-- C2, witness for the amended theorem. -/
theorem C2_witness :
    "cheese" ∈ ST.fullPhrasesOf ⟨some "cheese", some 2, some []⟩ :=
  C2_generic_excluded_from_tokens _ _ (by decide) (by decide)

/-- C3, counterexample: a record with no name and no synonyms is not
dropped — script.js's `loadAvoidList` keeps it as a compiled entry whose
`terms` set is empty. -/
theorem C3_counterexample :
    SJ.loadAvoidList [some RawEntry.empty] = [⟨"", 0, []⟩] := by
  decide

/-- C3, amended: the empty-record entry is kept but inert: its term set is
empty, `findTermHit` on an empty term list returns no hit, and the entry
never lands in either severity bucket. -/
theorem C3_empty_entry_inert (ingredients : List String) :
    (SJ.normalizeAvoid ⟨none, some 2, none⟩).terms = [] ∧
    SJ.findTermHit ingredients [] = none ∧
    SJ.matchIngredients ingredients
      [SJ.normalizeAvoid ⟨none, some 2, none⟩] = ([], []) := by
  refine ⟨by decide, rfl, rfl⟩

/-- C5: `tokenizeForTerms` keeps only tokens of length at least
`TERM_TOKEN_MIN_LEN` (= 5); "wheat (semolina)" tokenizes to
["wheat", "semolina"]; the entry
`{name:"cheese", level:2, synonyms:["wheat (semolina)"]}` compiles a
"semolina" term in both variants; and the ingredient
"pasta (semolina, water)" triggers a level-2 match in both variants. -/
theorem C5_parenthetical_tokens :
    (∀ s : String, ((tokenizeForTerms s).all fun t =>
      decide (TERM_TOKEN_MIN_LEN ≤ t.length)) = true) ∧
    tokenizeForTerms "wheat (semolina)" = ["wheat", "semolina"] ∧
    "semolina" ∈
      (SJ.normalizeAvoid ⟨some "cheese", some 2, some ["wheat (semolina)"]⟩).terms ∧
    "semolina" ∈
      (ST.normalizeAvoid ⟨some "cheese", some 2, some ["wheat (semolina)"]⟩).terms ∧
    SJ.matchIngredients (SJ.buildIngredientsList "pasta (semolina, water)" [])
      [SJ.normalizeAvoid ⟨some "cheese", some 2, some ["wheat (semolina)"]⟩] =
      ([⟨"semolina", "cheese"⟩], []) ∧
    ST.matchIngredients (ST.buildIngredientsList "pasta (semolina, water)" [])
      [ST.normalizeAvoid ⟨some "cheese", some 2, some ["wheat (semolina)"]⟩] =
      ([⟨"semolina", "cheese"⟩], []) := by
  refine ⟨?_, by decide, by decide, by decide, by decide, by decide⟩
  intro s
  unfold tokenizeForTerms
  split
  · rfl
  · rw [List.all_eq_true]
    intro t ht
    rcases List.mem_map.mp ht with ⟨l, hl, rfl⟩
    have := (List.mem_filter.mp hl).2
    simpa using this

/-- C10: whenever the structured array is non-empty, both variants of
`buildIngredientsList` derive the token list from the array alone — the
free text is ignored even when every array fragment normalizes to the
empty string (concretely: the array `[{text:"( )"}]` yields no tokens
although the free text "salt" on its own would yield ["salt"]). -/
theorem C10_array_precedence (text text' : String)
    (arr : List (Option String)) (h : arr ≠ []) :
    (SJ.buildIngredientsList text arr = SJ.buildIngredientsList text' arr ∧
     ST.buildIngredientsList text arr = ST.buildIngredientsList text' arr) ∧
    (SJ.buildIngredientsList "salt" [some "( )"] = [] ∧
     ST.buildIngredientsList "salt" [some "( )"] = [] ∧
     SJ.buildIngredientsList "salt" [] = ["salt"]) := by
  refine ⟨⟨?_, ?_⟩, by decide, by decide, by decide⟩
  · simp [SJ.buildIngredientsList, h]
  · simp [ST.buildIngredientsList, h]

/-- C6: in loose mode, a term hits exactly when its needle is non-empty and
either the exact/word-boundary pass succeeds against some ingredient, or
the needle has length at least `PARTIAL_TOKEN_MIN_LEN` (5) and the plain
substring pass succeeds; in particular a term shorter than 5 characters
can only match as a whole word, never via the substring fallback. -/
theorem C6_loose_fallback (ingredients terms : List String) :
    (SJ.findTermHit ingredients terms).isSome =
      terms.any (SJ.termHitCond ingredients) := by
  induction terms with
  | nil => rfl
  | cons t rest ih =>
    simp only [SJ.findTermHit, List.any_cons, SJ.termHitCond]
    split_ifs with h1 h2 h3 <;> simp_all [List.isEmpty_iff]

/-! Supporting lemmas for C9 (all-whitespace input). -/

theorem tblLookup_mem {α : Type} {t : List (Char × α)} {c : Char} {v : α} :
    tblLookup t c = some v → (c, v) ∈ t := by
  induction t with
  | nil => simp [tblLookup]
  | cons p rest ih =>
    obtain ⟨k, w⟩ := p
    simp only [tblLookup]
    split
    · rintro ⟨rfl⟩
      simp_all
    · intro h
      exact List.mem_cons_of_mem _ (ih h)

theorem jsToLowerChar_of_space {c : Char} (h : isJsSpace c = true) :
    jsToLowerChar c = c := by
  unfold jsToLowerChar
  cases hl : tblLookup lowerTable c with
  | none => rfl
  | some d =>
    exfalso
    have hm := tblLookup_mem hl
    have : lowerTable.all (fun p => !isJsSpace p.1) = true := by decide
    have := List.all_eq_true.mp this _ hm
    simp_all

theorem normalizeIngredientL_of_spaces {l : List Char}
    (h : ∀ c ∈ l, isJsSpace c = true) : SJ.normalizeIngredientL l = [] := by
  unfold SJ.normalizeIngredientL
  split
  · rfl
  · have hmap : jsToLower l = l :=
      (List.map_congr_left fun c hc => jsToLowerChar_of_space (h c hc)).trans
        (List.map_id l)
    rw [hmap]
    have : l.dropWhile isJsSpace = [] := by
      rw [List.dropWhile_eq_nil_iff]
      exact fun c hc => h c hc
    unfold jsTrim dropEnds
    rw [this]
    rfl

theorem mem_splitRunsAux {sep : Char → Bool} {c : Char} :
    ∀ (inRun : Bool) (acc l piece : List Char),
      piece ∈ splitRunsAux sep inRun acc l → c ∈ piece → c ∈ acc ∨ c ∈ l := by
  intro inRun acc l
  induction l generalizing inRun acc with
  | nil =>
    intro piece hp hc
    simp only [splitRunsAux, List.mem_singleton] at hp
    subst hp
    exact Or.inl (List.mem_reverse.mp hc)
  | cons y rest ih =>
    intro piece hp hc
    simp only [splitRunsAux] at hp
    by_cases hy : sep y = true
    · rw [if_pos hy] at hp
      by_cases hir : inRun = true
      · rw [if_pos hir] at hp
        rcases ih _ _ _ hp hc with h | h
        · exact Or.inl h
        · exact Or.inr (List.mem_cons_of_mem _ h)
      · rw [if_neg hir] at hp
        rcases List.mem_cons.mp hp with rfl | hp
        · exact Or.inl (List.mem_reverse.mp hc)
        · rcases ih _ _ _ hp hc with h | h
          · simp at h
          · exact Or.inr (List.mem_cons_of_mem _ h)
    · rw [if_neg hy] at hp
      rcases ih _ _ _ hp hc with h | h
      · rcases List.mem_cons.mp h with rfl | h
        · exact Or.inr (List.mem_cons_self _ _)
        · exact Or.inl h
      · exact Or.inr (List.mem_cons_of_mem _ h)

theorem mem_splitRuns {sep : Char → Bool} {l piece : List Char} {c : Char}
    (hp : piece ∈ splitRuns sep l) (hc : c ∈ piece) : c ∈ l := by
  rcases mem_splitRunsAux false [] l piece hp hc with h | h
  · simp at h
  · exact h

/-- C9: an empty or all-whitespace free-text input with an empty structured
array yields the empty token sequence (and, the embedding being total, no
error). -/
theorem C9_blank_input (text : String)
    (h : ∀ c ∈ text.toList, isJsSpace c = true) :
    SJ.buildIngredientsList text [] = [] := by
  unfold SJ.buildIngredientsList
  rw [if_neg (by simp)]
  by_cases he : text.toList = []
  · rw [if_pos he]
  · rw [if_neg he]
    have hfil : (((splitRuns isSplitSep text.toList).map
        fun t => SJ.normalizeIngredient ⟨t⟩).filter (· ≠ "")) = [] := by
      rw [List.filter_eq_nil_iff]
      intro x hx
      rcases List.mem_map.mp hx with ⟨piece, hpm, rfl⟩
      have hall : ∀ c ∈ piece, isJsSpace c = true :=
        fun c hc => h c (mem_splitRuns hpm hc)
      have : SJ.normalizeIngredient ⟨piece⟩ = "" := by
        show (⟨SJ.normalizeIngredientL piece⟩ : String) = ""
        rw [normalizeIngredientL_of_spaces hall]
      simp [this]
    rw [hfil]
    rfl

/-- C9, witness. -/
theorem C9_witness : SJ.buildIngredientsList "  " [] = [] :=
  C9_blank_input "  " (by decide)

/-- C10, witness. -/
theorem C10_witness :
    SJ.buildIngredientsList "salt" [some "( )"] =
      SJ.buildIngredientsList "pepper" [some "( )"] ∧
    ST.buildIngredientsList "salt" [some "( )"] =
      ST.buildIngredientsList "pepper" [some "( )"] :=
  (C10_array_precedence "salt" "pepper" [some "( )"] (by decide)).1

/-! ## Supporting lemmas for C8 (idempotence of `normalizeIngredient`)

The strategy: every character of a normalized token is fixed by
`jsToLowerChar` and by `nfdChar`, the token contains no
`( … )` regex match, its separators are single interior spaces, and its
first and last characters are in `[a-z0-9]`; each normalization stage is
then the identity on such a token. -/

theorem alnum_not_space {c : Char} (h : isLowAlnum c = true) :
    isJsSpace c = false := by
  simp only [isLowAlnum, decide_eq_true_eq] at h
  simp only [isJsSpace, decide_eq_false_iff_not]
  omega

theorem alnum_not_sep {c : Char} (h : isLowAlnum c = true) :
    isSepChar c = false := by
  simp only [isLowAlnum, decide_eq_true_eq] at h
  simp only [isSepChar, isJsSpace, Bool.or_eq_false_iff,
    decide_eq_false_iff_not]
  omega

/-- Values of the lowercase table have no entry of their own. -/
theorem lowerTable_values_fixed :
    lowerTable.all (fun p => (tblLookup lowerTable p.2).isNone) = true := by
  decide

theorem jsToLowerChar_idem (c : Char) :
    jsToLowerChar (jsToLowerChar c) = jsToLowerChar c := by
  unfold jsToLowerChar
  cases hl : tblLookup lowerTable c with
  | none => rw [hl]
  | some d =>
    have hm := tblLookup_mem hl
    have := List.all_eq_true.mp lowerTable_values_fixed _ hm
    simp only [Option.isNone_iff_eq_none] at this
    rw [this]

/-- Non-mark characters in the NFD table's decompositions have no
decomposition of their own. -/
theorem nfdTable_values_atomic :
    nfdTable.all (fun p => p.2.all fun d =>
      isCombiningMark d || (tblLookup nfdTable d).isNone) = true := by
  decide

/-- Characters in the NFD table's decompositions are fixed by
`jsToLowerChar`. -/
theorem nfdTable_values_lower_fixed :
    nfdTable.all (fun p => p.2.all fun d =>
      (tblLookup lowerTable d).isNone) = true := by
  decide

theorem nfdChar_of_no_entry {c : Char} (h : tblLookup nfdTable c = none) :
    nfdChar c = [c] := by
  unfold nfdChar
  rw [h]

theorem jsToLowerChar_of_no_entry {c : Char}
    (h : tblLookup lowerTable c = none) : jsToLowerChar c = c := by
  unfold jsToLowerChar
  rw [h]

/-- Every character of `stripDiacritics l` is atomic for `nfdChar` and is
not a combining mark (unconditionally). -/
theorem stripDiacritics_chars_atomic {l : List Char} {c : Char}
    (h : c ∈ stripDiacritics l) :
    nfdChar c = [c] ∧ isCombiningMark c = false := by
  unfold stripDiacritics at h
  have hmk := (List.mem_filter.mp h).2
  simp only [Bool.not_eq_true'] at hmk
  refine ⟨?_, hmk⟩
  have hfl := (List.mem_filter.mp h).1
  rcases List.mem_flatten.mp hfl with ⟨v, hv, hcv⟩
  rcases List.mem_map.mp hv with ⟨d, _, rfl⟩
  unfold nfdChar at hcv
  cases hd : tblLookup nfdTable d with
  | none =>
    rw [hd] at hcv
    simp only [List.mem_singleton] at hcv
    subst hcv
    exact nfdChar_of_no_entry hd
  | some v =>
    rw [hd] at hcv
    have hm := tblLookup_mem hd
    have := List.all_eq_true.mp
      (List.all_eq_true.mp nfdTable_values_atomic _ hm) _ hcv
    rcases Bool.or_eq_true_iff.mp this with hmark | hnone
    · rw [hmark] at hmk
      exact absurd hmk (by simp)
    · exact nfdChar_of_no_entry (Option.isNone_iff_eq_none.mp hnone)

/-- `stripDiacritics` preserves "fixed by `jsToLowerChar`". -/
theorem stripDiacritics_chars_lower_fixed {l : List Char} {c : Char}
    (hall : ∀ x ∈ l, jsToLowerChar x = x) (h : c ∈ stripDiacritics l) :
    jsToLowerChar c = c := by
  unfold stripDiacritics at h
  have hfl := (List.mem_filter.mp h).1
  rcases List.mem_flatten.mp hfl with ⟨v, hv, hcv⟩
  rcases List.mem_map.mp hv with ⟨d, hd, rfl⟩
  unfold nfdChar at hcv
  cases he : tblLookup nfdTable d with
  | none =>
    rw [he] at hcv
    simp only [List.mem_singleton] at hcv
    subst hcv
    exact hall _ hd
  | some v =>
    rw [he] at hcv
    have hm := tblLookup_mem he
    have := List.all_eq_true.mp
      (List.all_eq_true.mp nfdTable_values_lower_fixed _ hm) _ hcv
    exact jsToLowerChar_of_no_entry (Option.isNone_iff_eq_none.mp this)

/-! Membership lemmas: each stage only emits characters of its input (plus
the replacement space for `collapseSeps`). -/

theorem mem_removeParensAux {c : Char} :
    ∀ (l : List Char) (st : Option (List Char)), c ∈ removeParensAux l st →
      c ∈ l ∨ (∃ buf, st = some buf ∧ (c = '(' ∨ c ∈ buf)) := by
  intro l
  induction l with
  | nil =>
    intro st h
    cases st with
    | none => simp [removeParensAux] at h
    | some buf =>
      simp only [removeParensAux] at h
      rcases List.mem_cons.mp h with rfl | h
      · exact Or.inr ⟨buf, rfl, Or.inl rfl⟩
      · exact Or.inr ⟨buf, rfl, Or.inr (List.mem_reverse.mp h)⟩
  | cons y rest ih =>
    intro st h
    cases st with
    | none =>
      simp only [removeParensAux] at h
      by_cases hy : y = '('
      · rw [if_pos hy] at h
        rcases ih _ h with h | ⟨buf, hb, h⟩
        · exact Or.inl (List.mem_cons_of_mem _ h)
        · obtain rfl : buf = [] := by injection hb with hb; exact hb.symm
          rcases h with rfl | h
          · exact Or.inl (hy ▸ List.mem_cons_self _ _)
          · simp at h
      · rw [if_neg hy] at h
        rcases List.mem_cons.mp h with rfl | h
        · exact Or.inl (List.mem_cons_self _ _)
        · rcases ih _ h with h | ⟨buf, hb, _⟩
          · exact Or.inl (List.mem_cons_of_mem _ h)
          · exact absurd hb (by simp)
    | some buf =>
      simp only [removeParensAux] at h
      by_cases hy : y = ')'
      · rw [if_pos hy] at h
        rcases ih _ h with h | ⟨buf', hb, _⟩
        · exact Or.inl (List.mem_cons_of_mem _ h)
        · exact absurd hb (by simp)
      · rw [if_neg hy] at h
        rcases ih _ h with h | ⟨buf', hb, h⟩
        · exact Or.inl (List.mem_cons_of_mem _ h)
        · obtain rfl : buf' = y :: buf := by injection hb with hb; exact hb.symm
          rcases h with rfl | h
          · exact Or.inr ⟨buf, rfl, Or.inl rfl⟩
          · rcases List.mem_cons.mp h with rfl | h
            · exact Or.inl (List.mem_cons_self _ _)
            · exact Or.inr ⟨buf, rfl, Or.inr h⟩

theorem mem_removeParens {c : Char} {l : List Char}
    (h : c ∈ removeParens l) : c ∈ l := by
  rcases mem_removeParensAux l none h with h | ⟨_, hb, _⟩
  · exact h
  · exact absurd hb (by simp)

theorem mem_collapseSepsAux {c : Char} :
    ∀ (inRun : Bool) (l : List Char), c ∈ collapseSepsAux inRun l →
      c = ' ' ∨ c ∈ l := by
  intro inRun l
  induction l generalizing inRun with
  | nil => simp [collapseSepsAux]
  | cons y rest ih =>
    intro h
    simp only [collapseSepsAux] at h
    by_cases hy : isSepChar y = true
    · rw [if_pos hy] at h
      by_cases hir : inRun = true
      · rw [if_pos hir] at h
        simp only [List.nil_append] at h
        rcases ih _ h with h | h
        · exact Or.inl h
        · exact Or.inr (List.mem_cons_of_mem _ h)
      · rw [if_neg hir] at h
        rcases List.mem_append.mp h with h | h
        · simp only [List.mem_singleton] at h
          exact Or.inl h
        · rcases ih _ h with h | h
          · exact Or.inl h
          · exact Or.inr (List.mem_cons_of_mem _ h)
    · rw [if_neg hy] at h
      rcases List.mem_cons.mp h with rfl | h
      · exact Or.inr (List.mem_cons_self _ _)
      · rcases ih _ h with h | h
        · exact Or.inl h
        · exact Or.inr (List.mem_cons_of_mem _ h)

theorem mem_dropWhile {p : Char → Bool} {c : Char} :
    ∀ l : List Char, c ∈ l.dropWhile p → c ∈ l := by
  intro l
  induction l with
  | nil => simp
  | cons y rest ih =>
    intro h
    rw [List.dropWhile_cons] at h
    split at h
    · exact List.mem_cons_of_mem _ (ih h)
    · exact h

theorem mem_dropTrailing {p : Char → Bool} {c : Char} :
    ∀ l : List Char, c ∈ dropTrailing p l → c ∈ l := by
  intro l
  induction l with
  | nil => simp [dropTrailing]
  | cons y rest ih =>
    intro h
    simp only [dropTrailing] at h
    split at h
    · split at h
      · simp at h
      · simp only [List.mem_singleton] at h
        exact h ▸ List.mem_cons_self _ _
    · rcases List.mem_cons.mp h with rfl | h
      · exact List.mem_cons_self _ _
      · exact List.mem_cons_of_mem _ (ih h)

theorem mem_dropEnds {p : Char → Bool} {c : Char} {l : List Char}
    (h : c ∈ dropEnds p l) : c ∈ l :=
  mem_dropWhile l (mem_dropTrailing _ h)

/-! `removeParens` is the identity on paren-match-free strings and always
produces a paren-match-free string. -/

theorem hasOC_of_no_close {l : List Char} (h : ')' ∉ l) : hasOC l = false := by
  induction l with
  | nil => rfl
  | cons c rest ih =>
    simp only [hasOC, Bool.or_eq_false_iff, Bool.and_eq_false_iff]
    constructor
    · right
      simp only [decide_eq_false_iff_not]
      exact fun hr => h (List.mem_cons_of_mem _ hr)
    · exact ih fun hr => h (List.mem_cons_of_mem _ hr)

theorem removeParensAux_no_close :
    ∀ (rest buf : List Char), ')' ∉ rest →
      removeParensAux rest (some buf) = '(' :: buf.reverse ++ rest := by
  intro rest
  induction rest with
  | nil => intro buf _; simp [removeParensAux]
  | cons c r ih =>
    intro buf h
    have hc : c ≠ ')' := fun hc => h (hc ▸ List.mem_cons_self _ _)
    simp only [removeParensAux, if_neg hc]
    rw [ih _ fun hr => h (List.mem_cons_of_mem _ hr)]
    simp

theorem removeParens_id {l : List Char} (h : hasOC l = false) :
    removeParens l = l := by
  unfold removeParens
  induction l with
  | nil => rfl
  | cons c rest ih =>
    simp only [hasOC, Bool.or_eq_false_iff, Bool.and_eq_false_iff,
      decide_eq_false_iff_not] at h
    simp only [removeParensAux]
    by_cases hc : c = '('
    · rcases h.1 with hne | hnc
      · exact absurd hc hne
      · rw [if_pos hc, removeParensAux_no_close _ _ hnc, hc]
        rfl
    · rw [if_neg hc, ih h.2]

theorem hasOC_removeParensAux :
    ∀ (l : List Char) (st : Option (List Char)),
      (∀ buf, st = some buf → ')' ∉ buf) →
      hasOC (removeParensAux l st) = false := by
  intro l
  induction l with
  | nil =>
    intro st hst
    cases st with
    | none => rfl
    | some buf =>
      simp only [removeParensAux, hasOC, Bool.or_eq_false_iff,
        Bool.and_eq_false_iff]
      have hb := hst buf rfl
      constructor
      · right
        simp only [decide_eq_false_iff_not]
        exact fun hr => hb (List.mem_reverse.mp hr)
      · exact hasOC_of_no_close fun hr => hb (List.mem_reverse.mp hr)
  | cons c rest ih =>
    intro st hst
    cases st with
    | none =>
      simp only [removeParensAux]
      by_cases hc : c = '('
      · rw [if_pos hc]
        exact ih _ fun buf hb => by injection hb with hb; subst hb; simp
      · rw [if_neg hc]
        simp only [hasOC, Bool.or_eq_false_iff, Bool.and_eq_false_iff]
        refine ⟨Or.inl (by simpa using hc), ih none (by simp)⟩
    | some buf =>
      simp only [removeParensAux]
      by_cases hc : c = ')'
      · rw [if_pos hc]
        exact ih none (by simp)
      · rw [if_neg hc]
        refine ih _ fun buf' hb => ?_
        injection hb with hb
        subst hb
        intro hr
        rcases List.mem_cons.mp hr with h | h
        · exact hc h.symm
        · exact hst buf rfl h

theorem hasOC_removeParens (l : List Char) :
    hasOC (removeParens l) = false :=
  hasOC_removeParensAux l none (by simp)

/-! `hasOC = false` is inherited by prefixes, suffixes, and the collapse
stage. -/

theorem hasOC_append_right {a b : List Char} (h : hasOC (a ++ b) = false) :
    hasOC b = false := by
  induction a with
  | nil => exact h
  | cons x a' ih =>
    simp only [List.cons_append, hasOC, Bool.or_eq_false_iff] at h
    exact ih h.2

theorem hasOC_append_left {a b : List Char} (h : hasOC (a ++ b) = false) :
    hasOC a = false := by
  induction a with
  | nil => rfl
  | cons x a' ih =>
    simp only [List.cons_append, hasOC, Bool.or_eq_false_iff,
      Bool.and_eq_false_iff, decide_eq_false_iff_not] at h ⊢
    refine ⟨?_, ih h.2⟩
    rcases h.1 with h1 | h1
    · exact Or.inl h1
    · exact Or.inr fun hr => h1 (List.mem_append.mpr (Or.inl hr))

theorem dropTrailing_prefix (p : Char → Bool) :
    ∀ l : List Char, ∃ t, l = dropTrailing p l ++ t := by
  intro l
  induction l with
  | nil => exact ⟨[], rfl⟩
  | cons c rest ih =>
    rcases ih with ⟨t, ht⟩
    simp only [dropTrailing]
    split
    · split
      · exact ⟨c :: rest, rfl⟩
      · refine ⟨t, ?_⟩
        rename_i hre _
        rw [List.isEmpty_iff] at hre
        rw [hre] at ht
        simpa using ht
    · exact ⟨t, by simpa using ht⟩

theorem hasOC_dropWhile {p : Char → Bool} {l : List Char}
    (h : hasOC l = false) : hasOC (l.dropWhile p) = false := by
  conv at h => rw [← List.takeWhile_append_dropWhile (p := p) (l := l)]
  exact hasOC_append_right h

theorem hasOC_dropTrailing {p : Char → Bool} {l : List Char}
    (h : hasOC l = false) : hasOC (dropTrailing p l) = false := by
  rcases dropTrailing_prefix p l with ⟨t, ht⟩
  rw [ht] at h
  exact hasOC_append_left h

theorem hasOC_dropEnds {p : Char → Bool} {l : List Char}
    (h : hasOC l = false) : hasOC (dropEnds p l) = false :=
  hasOC_dropTrailing (hasOC_dropWhile h)

/-! Heads and last elements through `dropWhile`/`dropTrailing`, and the
conditions under which each end-trimming stage is the identity. -/

theorem dropWhile_head {p : Char → Bool} :
    ∀ {l : List Char} {c : Char} {l' : List Char},
      List.dropWhile p l = c :: l' → p c = false := by
  intro l
  induction l with
  | nil => intro c l' h; simp at h
  | cons y rest ih =>
    intro c l' h
    rw [List.dropWhile_cons] at h
    split at h
    · exact ih h
    · rename_i hp
      injection h with h1 _
      subst h1
      simpa using hp

theorem dropTrailing_head {p : Char → Bool} :
    ∀ {l : List Char} {c : Char} {l' : List Char},
      dropTrailing p l = c :: l' → ∃ r, l = c :: r := by
  intro l
  induction l with
  | nil => intro c l' h; simp [dropTrailing] at h
  | cons y rest ih =>
    intro c l' h
    simp only [dropTrailing] at h
    split at h
    · split at h
      · simp at h
      · injection h with h1 _
        exact ⟨rest, by rw [h1]⟩
    · injection h with h1 _
      exact ⟨rest, by rw [h1]⟩

theorem dropTrailing_getLast {p : Char → Bool} :
    ∀ {l : List Char} {c : Char},
      (dropTrailing p l).getLast? = some c → p c = false := by
  intro l
  induction l with
  | nil => intro c h; simp [dropTrailing] at h
  | cons y rest ih =>
    intro c h
    simp only [dropTrailing] at h
    split at h
    · split at h
      · simp at h
      · rename_i hp
        simp only [List.getLast?_singleton, Option.some.injEq] at h
        subst h
        simpa using hp
    · rename_i hr
      have hne : dropTrailing p rest ≠ [] := by
        intro he
        rw [he] at hr
        simp at hr
      rcases List.exists_cons_of_ne_nil hne with ⟨z, r', hzr⟩
      rw [hzr, List.getLast?_cons_cons] at h
      exact ih (by rw [hzr]; exact h)

theorem dropEnds_head {p : Char → Bool} {l : List Char} {c : Char}
    {l' : List Char} (h : dropEnds p l = c :: l') : p c = false := by
  rcases dropTrailing_head h with ⟨r, hr⟩
  exact dropWhile_head hr

theorem dropEnds_getLast {p : Char → Bool} {l : List Char} {c : Char}
    (h : (dropEnds p l).getLast? = some c) : p c = false :=
  dropTrailing_getLast h

theorem dropWhile_id {p : Char → Bool} {l : List Char}
    (h : ∀ c l', l = c :: l' → p c = false) : l.dropWhile p = l := by
  cases l with
  | nil => rfl
  | cons c rest =>
    rw [List.dropWhile_cons, if_neg]
    simp [h c rest rfl]

theorem dropTrailing_id {p : Char → Bool} :
    ∀ {l : List Char}, (∀ c, l.getLast? = some c → p c = false) →
      dropTrailing p l = l := by
  intro l
  induction l with
  | nil => intro _; rfl
  | cons y rest ih =>
    intro h
    simp only [dropTrailing]
    cases rest with
    | nil =>
      have hy : p y = false := h y (by simp)
      simp [dropTrailing, hy]
    | cons z r' =>
      have hrest : dropTrailing p (z :: r') = z :: r' :=
        ih fun c hc => h c (by rw [List.getLast?_cons_cons]; exact hc)
      rw [hrest]
      simp

theorem dropEnds_id {p : Char → Bool} {l : List Char}
    (hh : ∀ c l', l = c :: l' → p c = false)
    (hl : ∀ c, l.getLast? = some c → p c = false) : dropEnds p l = l := by
  unfold dropEnds
  rw [dropWhile_id hh, dropTrailing_id hl]

/-! Identity of the map/flatten stages on already-normalized characters. -/

theorem flatten_map_singleton {l : List Char}
    (h : ∀ c ∈ l, nfdChar c = [c]) : (l.map nfdChar).flatten = l := by
  induction l with
  | nil => rfl
  | cons c rest ih =>
    simp only [List.map_cons, List.flatten_cons, h c (List.mem_cons_self _ _)]
    rw [ih fun x hx => h x (List.mem_cons_of_mem _ hx)]
    rfl

theorem stripDiacritics_id {l : List Char}
    (h : ∀ c ∈ l, nfdChar c = [c] ∧ isCombiningMark c = false) :
    stripDiacritics l = l := by
  unfold stripDiacritics
  rw [flatten_map_singleton fun c hc => (h c hc).1]
  exact List.filter_eq_self.mpr fun a ha => by simp [(h a ha).2]

theorem jsToLower_id {l : List Char} (h : ∀ c ∈ l, jsToLowerChar c = c) :
    jsToLower l = l :=
  (List.map_congr_left h).trans (List.map_id l)

/-! Identity and output shape of the separator-collapsing stage. -/

theorem collapse_id_aux :
    ∀ l : List Char, SpacedOk l → NoAdjSep l →
      collapseSepsAux false l = l ∧
        (headNonSep l → collapseSepsAux true l = l) := by
  intro l
  induction l with
  | nil => exact fun _ _ => ⟨rfl, fun _ => rfl⟩
  | cons c rest ih =>
    intro hsp hadj
    have hsp' : SpacedOk rest := fun x hx => hsp x (List.mem_cons_of_mem _ hx)
    have hcc := List.chain'_cons'.mp hadj
    obtain ⟨h0, h1⟩ := ih hsp' hcc.2
    constructor
    · show collapseSepsAux false (c :: rest) = c :: rest
      simp only [collapseSepsAux]
      by_cases hc : isSepChar c = true
      · rw [if_pos hc]
        have hcs : c = ' ' := hsp c (List.mem_cons_self _ _) hc
        have hrest : headNonSep rest := by
          cases rest with
          | nil => trivial
          | cons y r =>
            rcases hcc.1 y (by simp) with h | h
            · rw [hc] at h
              exact absurd h (by simp)
            · exact h
        rw [h1 hrest, hcs]
        rfl
      · rw [if_neg hc, h0]
    · intro hh
      show collapseSepsAux true (c :: rest) = c :: rest
      simp only [collapseSepsAux]
      have hc : isSepChar c = false := hh
      rw [if_neg (by simp [hc]), h0]

theorem collapse_good :
    ∀ (inRun : Bool) (l : List Char),
      SpacedOk (collapseSepsAux inRun l) ∧ NoAdjSep (collapseSepsAux inRun l) ∧
        (inRun = true → headNonSep (collapseSepsAux inRun l)) := by
  intro inRun l
  induction l generalizing inRun with
  | nil =>
    refine ⟨?_, ?_, fun _ => ?_⟩
    · intro c hc
      simp [collapseSepsAux] at hc
    · simp [collapseSepsAux, NoAdjSep]
    · simp [collapseSepsAux, headNonSep]
  | cons c rest ih =>
    by_cases hc : isSepChar c = true
    · cases inRun with
      | true =>
        have h := ih true
        refine ⟨?_, ?_, fun _ => ?_⟩ <;>
          simp only [collapseSepsAux, if_pos hc, if_pos rfl, List.nil_append]
        · exact h.1
        · exact h.2.1
        · exact h.2.2 rfl
      | false =>
        have h := ih true
        refine ⟨?_, ?_, fun hcon => ?_⟩ <;>
          simp only [collapseSepsAux, if_pos hc]
        · intro x hx hsx
          rcases List.mem_cons.mp (by simpa using hx) with rfl | hx'
          · rfl
          · exact h.1 x hx' hsx
        · show List.Chain' _ (' ' :: collapseSepsAux true rest)
          refine List.chain'_cons'.mpr ⟨?_, h.2.1⟩
          intro y hy
          cases hout : collapseSepsAux true rest with
          | nil => rw [hout] at hy; simp at hy
          | cons z r' =>
            rw [hout] at hy
            simp only [List.head?_cons, Option.mem_def, Option.some.injEq] at hy
            subst hy
            have := h.2.2 rfl
            rw [hout] at this
            exact Or.inr this
        · exact absurd hcon (by simp)
    · have h := ih false
      have hstep : ∀ ir : Bool, collapseSepsAux ir (c :: rest) =
          c :: collapseSepsAux false rest := by
        intro ir
        simp only [collapseSepsAux, if_neg hc]
      refine ⟨?_, ?_, fun _ => ?_⟩ <;> rw [hstep inRun]
      · intro x hx hsx
        rcases List.mem_cons.mp hx with rfl | hx'
        · exact absurd hsx (by simp [hc])
        · exact h.1 x hx' hsx
      · refine List.chain'_cons'.mpr ⟨?_, h.2.1⟩
        intro y _
        exact Or.inl (by simpa using hc)
      · show isSepChar c = false
        simpa using hc

/-! `SpacedOk`/`NoAdjSep` survive end trimming. -/

theorem spacedOk_dropEnds {p : Char → Bool} {l : List Char}
    (h : SpacedOk l) : SpacedOk (dropEnds p l) :=
  fun c hc => h c (mem_dropEnds hc)

theorem noAdjSep_dropWhile {p : Char → Bool} {l : List Char}
    (h : NoAdjSep l) : NoAdjSep (l.dropWhile p) := by
  unfold NoAdjSep at *
  conv at h => rw [← List.takeWhile_append_dropWhile (p := p) (l := l)]
  exact (List.chain'_append.mp h).2.1

theorem noAdjSep_dropTrailing {p : Char → Bool} {l : List Char}
    (h : NoAdjSep l) : NoAdjSep (dropTrailing p l) := by
  rcases dropTrailing_prefix p l with ⟨t, ht⟩
  rw [ht] at h
  exact (List.chain'_append.mp h).1

theorem noAdjSep_dropEnds {p : Char → Bool} {l : List Char}
    (h : NoAdjSep l) : NoAdjSep (dropEnds p l) :=
  noAdjSep_dropTrailing (noAdjSep_dropWhile h)

theorem not_close_collapseSepsAux {inRun : Bool} {l : List Char}
    (h : ')' ∉ l) : ')' ∉ collapseSepsAux inRun l := by
  intro hc
  rcases mem_collapseSepsAux inRun l hc with h' | h'
  · exact absurd h'.symm (by decide)
  · exact h h'

theorem hasOC_collapseSepsAux :
    ∀ (inRun : Bool) (l : List Char), hasOC l = false →
      hasOC (collapseSepsAux inRun l) = false := by
  intro inRun l
  induction l generalizing inRun with
  | nil => intro _; rfl
  | cons c rest ih =>
    intro h
    simp only [hasOC, Bool.or_eq_false_iff, Bool.and_eq_false_iff,
      decide_eq_false_iff_not] at h
    simp only [collapseSepsAux]
    by_cases hc : isSepChar c = true
    · rw [if_pos hc]
      by_cases hir : inRun = true
      · rw [if_pos hir]
        simpa using ih true h.2
      · rw [if_neg hir]
        simp only [List.cons_append, List.nil_append, hasOC,
          Bool.or_eq_false_iff, Bool.and_eq_false_iff]
        exact ⟨Or.inl (by decide), ih _ h.2⟩
    · rw [if_neg hc]
      simp only [hasOC, Bool.or_eq_false_iff, Bool.and_eq_false_iff,
        decide_eq_false_iff_not]
      refine ⟨?_, ih _ h.2⟩
      rcases h.1 with h1 | h1
      · exact Or.inl h1
      · exact Or.inr fun hr => absurd hr (not_close_collapseSepsAux h1)

/-- The invariants of a normalized token: every character is fixed by
`jsToLowerChar` and atomic for `nfdChar`, no combining marks, no
`\([^)]*\)` match, separators are single interior spaces, and the first
and last characters are in `[a-z0-9]`. -/
theorem normalizeIngredientL_facts (l : List Char) :
    (∀ c ∈ SJ.normalizeIngredientL l, jsToLowerChar c = c) ∧
    (∀ c ∈ SJ.normalizeIngredientL l,
      nfdChar c = [c] ∧ isCombiningMark c = false) ∧
    hasOC (SJ.normalizeIngredientL l) = false ∧
    SpacedOk (SJ.normalizeIngredientL l) ∧
    NoAdjSep (SJ.normalizeIngredientL l) ∧
    (∀ c l', SJ.normalizeIngredientL l = c :: l' → isLowAlnum c = true) ∧
    (∀ c, (SJ.normalizeIngredientL l).getLast? = some c →
      isLowAlnum c = true) := by
  unfold SJ.normalizeIngredientL
  split
  · refine ⟨by simp, by simp, rfl, by intro c hc; simp at hc, ?_, ?_, ?_⟩
    · simp [NoAdjSep]
    · intro c l' h
      simp at h
    · intro c h
      simp at h
  · have h2 : ∀ c ∈ jsTrim (jsToLower l), jsToLowerChar c = c := by
      intro c hc
      rcases List.mem_map.mp (mem_dropEnds hc) with ⟨d, _, rfl⟩
      exact jsToLowerChar_idem d
    have h3L : ∀ c ∈ stripDiacritics (jsTrim (jsToLower l)),
        jsToLowerChar c = c :=
      fun c hc => stripDiacritics_chars_lower_fixed h2 hc
    have h3N : ∀ c ∈ stripDiacritics (jsTrim (jsToLower l)),
        nfdChar c = [c] ∧ isCombiningMark c = false :=
      fun c hc => stripDiacritics_chars_atomic hc
    have h4L : ∀ c ∈ removeParens (stripDiacritics (jsTrim (jsToLower l))),
        jsToLowerChar c = c :=
      fun c hc => h3L c (mem_removeParens hc)
    have h4N : ∀ c ∈ removeParens (stripDiacritics (jsTrim (jsToLower l))),
        nfdChar c = [c] ∧ isCombiningMark c = false :=
      fun c hc => h3N c (mem_removeParens hc)
    have h4OC := hasOC_removeParens (stripDiacritics (jsTrim (jsToLower l)))
    have hspace : jsToLowerChar ' ' = ' ' ∧ nfdChar ' ' = [' '] ∧
        isCombiningMark ' ' = false := by decide
    have h5L : ∀ c ∈ collapseSeps
        (removeParens (stripDiacritics (jsTrim (jsToLower l)))),
        jsToLowerChar c = c := by
      intro c hc
      rcases mem_collapseSepsAux false _ hc with rfl | hc'
      · exact hspace.1
      · exact h4L c hc'
    have h5N : ∀ c ∈ collapseSeps
        (removeParens (stripDiacritics (jsTrim (jsToLower l)))),
        nfdChar c = [c] ∧ isCombiningMark c = false := by
      intro c hc
      rcases mem_collapseSepsAux false _ hc with rfl | hc'
      · exact ⟨hspace.2.1, hspace.2.2⟩
      · exact h4N c hc'
    have h5OC := hasOC_collapseSepsAux false _ h4OC
    have h5good := collapse_good false
      (removeParens (stripDiacritics (jsTrim (jsToLower l))))
    have h6L : ∀ c ∈ jsTrim (collapseSeps
        (removeParens (stripDiacritics (jsTrim (jsToLower l))))),
        jsToLowerChar c = c := fun c hc => h5L c (mem_dropEnds hc)
    have h6N : ∀ c ∈ jsTrim (collapseSeps
        (removeParens (stripDiacritics (jsTrim (jsToLower l))))),
        nfdChar c = [c] ∧ isCombiningMark c = false :=
      fun c hc => h5N c (mem_dropEnds hc)
    have h6OC : hasOC (jsTrim (collapseSeps
        (removeParens (stripDiacritics (jsTrim (jsToLower l)))))) = false :=
      hasOC_dropEnds h5OC
    have h6SP : SpacedOk (jsTrim (collapseSeps
        (removeParens (stripDiacritics (jsTrim (jsToLower l)))))) :=
      spacedOk_dropEnds h5good.1
    have h6ADJ : NoAdjSep (jsTrim (collapseSeps
        (removeParens (stripDiacritics (jsTrim (jsToLower l)))))) :=
      noAdjSep_dropEnds h5good.2.1
    refine ⟨fun c hc => h6L c (mem_dropEnds hc),
      fun c hc => h6N c (mem_dropEnds hc),
      hasOC_dropEnds h6OC,
      spacedOk_dropEnds h6SP,
      noAdjSep_dropEnds h6ADJ,
      ?_, ?_⟩
    · intro c l' h
      have := dropEnds_head h
      simpa using this
    · intro c h
      have := dropEnds_getLast h
      simpa using this

/-- C8: ingredient normalization is idempotent — normalizing an
already-normalized token yields the same token. -/
theorem C8_normalize_idempotent (s : String) :
    SJ.normalizeIngredient (SJ.normalizeIngredient s) =
      SJ.normalizeIngredient s := by
  show (⟨SJ.normalizeIngredientL
    (SJ.normalizeIngredientL s.toList)⟩ : String) = _
  have key : ∀ l : List Char,
      SJ.normalizeIngredientL (SJ.normalizeIngredientL l) =
        SJ.normalizeIngredientL l := by
    intro l
    obtain ⟨hL, hN, hOC, hSP, hADJ, hHead, hLast⟩ :=
      normalizeIngredientL_facts l
    by_cases h0 : SJ.normalizeIngredientL l = []
    · rw [h0]
      rfl
    · show SJ.normalizeIngredientL (SJ.normalizeIngredientL l) = _
      rw [SJ.normalizeIngredientL, if_neg h0]
      rw [jsToLower_id hL]
      have e2 : jsTrim (SJ.normalizeIngredientL l) =
          SJ.normalizeIngredientL l :=
        dropEnds_id (fun c l' h => alnum_not_space (hHead c l' h))
          (fun c h => alnum_not_space (hLast c h))
      rw [e2, stripDiacritics_id hN, removeParens_id hOC]
      have e5 : collapseSeps (SJ.normalizeIngredientL l) =
          SJ.normalizeIngredientL l :=
        (collapse_id_aux _ hSP hADJ).1
      rw [e5, e2]
      exact dropEnds_id (fun c l' h => by simp [hHead c l' h])
        (fun c h => by simp [hLast c h])
  rw [key s.toList]
  rfl
